import Mathlib

/-!
Verification of the DeltaTracker record normalizer and dual-mode search engine.

The development shallowly embeds the two core components of the application:
the row-to-record normalizer (src/utils/excelParser.ts, parseExcelFiles) and
the split exact/fuzzy search effect (src/App.tsx), together with the DropZone
input handlers (src/components/DropZone.tsx) and a small state machine for the
App component's accumulated state.  Cell values are modelled as the strings the
tabularization collaborator hands over; Math.random().toString(36).substr(2, 9)
is modelled as an oracle draw : Nat → String consumed left to right; the Fuse
index is modelled as an opaque function parameter, since every claim treats it
as a black box.
-/

namespace DeltaTracker

/-- JavaScript whitespace: the character class matched by the regex \s and
trimmed by String.prototype.trim. -/
def isJsWs (c : Char) : Bool :=
  c = ' ' || c = '\t' || c = '\n' || c = '\r' || c = '\u000b' || c = '\u000c' ||
  c.toNat = 0xa0 || c.toNat = 0x1680 || (0x2000 ≤ c.toNat && c.toNat ≤ 0x200a) ||
  c.toNat = 0x2028 || c.toNat = 0x2029 || c.toNat = 0x202f || c.toNat = 0x205f ||
  c.toNat = 0x3000 || c.toNat = 0xfeff

/-- Separator class of the whole-word regex in App.tsx: [\s._-]. -/
def isSep (c : Char) : Bool :=
  isJsWs c || c = '.' || c = '_' || c = '-'

/-- Character-wise model of String.prototype.toLowerCase. -/
def jsToLower (s : String) : String :=
  String.mk (s.data.map Char.toLower)

/-- List-level trim: drop JS whitespace from both ends. -/
def trimL (l : List Char) : List Char :=
  ((l.dropWhile isJsWs).reverse.dropWhile isJsWs).reverse

/-- Model of String.prototype.trim. -/
def jsTrim (s : String) : String :=
  String.mk (trimL s.data)

/-- Does the first list occur at the head of the second? -/
def hasPrefixL : List Char → List Char → Bool
  | [], _ => true
  | _ :: _, [] => false
  | p :: ps, c :: cs => p = c && hasPrefixL ps cs

/-- Does the pattern occur anywhere in the list? -/
def containsL (pat : List Char) : List Char → Bool
  | [] => pat.isEmpty
  | c :: cs => hasPrefixL pat (c :: cs) || containsL pat cs

/-- Model of String.prototype.includes. -/
def strContains (s pat : String) : Bool :=
  containsL pat.data s.data

/-- Does the second list end with the first? -/
def endsWithL (post l : List Char) : Bool :=
  hasPrefixL post.reverse l.reverse

/-- Model of String.prototype.endsWith. -/
def jsEndsWith (s post : String) : Bool :=
  endsWithL post.data s.data

/-- The unit entity produced by the parser (src/types.ts, TranslationRecord). -/
structure TranslationRecord where
  id : String
  taskName : String
  originalId : String
  key : String
  sourceText : String
  notes : List (String × String)
deriving DecidableEq

/-- Header-row heuristic of parseExcelFiles: the row index is below 5, the
trimmed key cell is "key" or "id" and the trimmed source cell is "value",
"source" or contains "text", all case-insensitively. -/
def headerRow (rowIndex : Nat) (keyVal sourceVal : String) : Bool :=
  decide (rowIndex < 5) &&
  (jsToLower keyVal == "key" || jsToLower keyVal == "id") &&
  (jsToLower sourceVal == "value" || jsToLower sourceVal == "source" ||
    strContains (jsToLower sourceVal) "text")

/-- Columns 3 and beyond with non-empty cells become notes keyed col_i. -/
def collectNotes (row : List String) : List (String × String) :=
  (List.range row.length).filterMap fun i =>
    if 3 ≤ i && row.getD i "" != "" then some ("col_" ++ toString i, row.getD i "")
    else none

/-- One iteration of the row loop of parseExcelFiles: the row is rejected when
it is shorter than 2 columns, when the header heuristic fires, or when both the
key and source candidates are empty after trimming; otherwise exactly one
record is built.  draw ctr stands for the Math.random suffix of the id. -/
def rowRecord (draw : Nat → String) (sheetName : String) (rowIndex : Nat)
    (row : List String) (ctr : Nat) : Option TranslationRecord :=
  if row.length < 2 then none
  else if headerRow rowIndex (jsTrim (row.getD 1 "")) (jsTrim (row.getD 2 "")) then none
  else if jsTrim (row.getD 1 "") == "" && jsTrim (row.getD 2 "") == "" then none
  else some
    { id := sheetName ++ "-" ++ toString rowIndex ++ "-" ++ draw ctr
      taskName := sheetName
      originalId := row.getD 0 ""
      key := jsTrim (row.getD 1 "")
      sourceText := jsTrim (row.getD 2 "")
      notes := collectNotes row }

/-- The row loop over one sheet: rowIndex counts every row, the draw counter
advances only when a record is pushed. -/
def processRows (draw : Nat → String) (sheetName : String) :
    List (List String) → Nat → Nat → List TranslationRecord × Nat
  | [], _, ctr => ([], ctr)
  | row :: rest, rowIndex, ctr =>
    match rowRecord draw sheetName rowIndex row ctr with
    | none => processRows draw sheetName rest (rowIndex + 1) ctr
    | some r =>
      let res := processRows draw sheetName rest (rowIndex + 1) (ctr + 1)
      (r :: res.1, res.2)

/-- A sheet: its name plus the rows of stringified cells delivered by the
tabularization collaborator (XLSX.utils.sheet_to_json with header 1). -/
structure Sheet where
  name : String
  rows : List (List String)
deriving DecidableEq

/-- All sheets of one workbook, in order. -/
def processWorkbook (draw : Nat → String) :
    List Sheet → Nat → List TranslationRecord × Nat
  | [], ctr => ([], ctr)
  | sh :: rest, ctr =>
    let first := processRows draw sh.name sh.rows 0 ctr
    let res := processWorkbook draw rest first.2
    (first.1 ++ res.1, res.2)

/-- A file handed to parseExcelFiles: tabularization either fails on it
(corrupt or unsupported container) or yields a workbook. -/
abbrev FileInput := Except Unit (List Sheet)

/-- parseExcelFiles: sequential loop over the files of one import call; a
failing file aborts the whole call and discards every sibling's records. -/
def parseExcelFiles (draw : Nat → String) :
    List FileInput → Nat → Except Unit (List TranslationRecord × Nat)
  | [], ctr => Except.ok ([], ctr)
  | f :: rest, ctr =>
    match f with
    | Except.error e => Except.error e
    | Except.ok wb =>
      let first := processWorkbook draw wb ctr
      match parseExcelFiles draw rest first.2 with
      | Except.error e => Except.error e
      | Except.ok res => Except.ok (first.1 ++ res.1, res.2)

/-- Case-insensitive literal match of the pattern at the head of the string;
on success the remaining characters are returned. -/
def stripCI : List Char → List Char → Option (List Char)
  | [], s => some s
  | _ :: _, [] => none
  | p :: ps, c :: cs => if c.toLower = p.toLower then stripCI ps cs else none

/-- The regex group ([\s._-]|$): the part after the matched query is empty or
starts with a separator. -/
def tailBoundary : List Char → Bool
  | [] => true
  | c :: _ => isSep c

/-- Match the query at this position, then require the right boundary. -/
def matchHere (q s : List Char) : Bool :=
  match stripCI q s with
  | some rest => tailBoundary rest
  | none => false

/-- The regex alternative where the left group consumes a separator: try every
position whose preceding character is a separator. -/
def scanSep (q : List Char) : List Char → Bool
  | [] => false
  | c :: rest => (isSep c && matchHere q rest) || scanSep q rest

/-- Operational model of exactMatchRegex.test in App.tsx: the pattern
(^|[\s._-])Q([\s._-]|$) with flag i, where Q is the escaped query and hence
matches the query text literally. -/
def testWW (q s : String) : Bool :=
  matchHere q.data s.data || scanSep q.data s.data

/-- Exact classification of one record (App.tsx, the filter inside the search
effect): strict case-insensitive equality on key or sourceText, or a
whole-word regex match on either field. -/
def isExactMatch (query : String) (r : TranslationRecord) : Bool :=
  jsToLower r.key == jsToLower query || jsToLower r.sourceText == jsToLower query ||
  testWW query r.key || testWW query r.sourceText

/-- One run of the search effect of App.tsx: given the accumulated records,
the settled debounced query and the previous (exact, fuzzy) pair, produce the
new pair.  fuseSearch abstracts fuse.search over the index built from the
records; the effect keeps the previous pair when the index is null, which the
useMemo makes happen exactly when the record set is empty. -/
def searchEffect (fuseSearch : List TranslationRecord → String → List TranslationRecord)
    (records : List TranslationRecord) (rawQuery : String)
    (prev : List TranslationRecord × List TranslationRecord) :
    List TranslationRecord × List TranslationRecord :=
  if jsTrim rawQuery = "" then ([], records)
  else if records.length = 0 then prev
  else
    (records.filter (isExactMatch (jsTrim rawQuery)),
     (fuseSearch records (jsTrim rawQuery)).filter
       (fun item =>
         !(((records.filter (isExactMatch (jsTrim rawQuery))).map (fun r => r.id)).contains
           item.id)))

/-- The App component state the claims are about. -/
structure AppState where
  records : List TranslationRecord
  query : String
  exactMatches : List TranslationRecord
  fuzzyMatches : List TranslationRecord
  ctr : Nat
deriving DecidableEq

/-- The initial App state. -/
def initState : AppState :=
  { records := [], query := "", exactMatches := [], fuzzyMatches := [], ctr := 0 }

/-- The external events driving the App component. -/
inductive Event where
  | importFiles (files : List FileInput)
  | search (q : String)
  | reset

/-- One App transition: handleFiles, the search effect on a settled debounced
query, or handleReset.  A failed import commits nothing; a successful one
appends the new records and the search effect re-runs with the current query.
The reset keeps the draw counter, since the random oracle never rewinds. -/
def step (draw : Nat → String)
    (fuseSearch : List TranslationRecord → String → List TranslationRecord)
    (s : AppState) : Event → AppState
  | Event.importFiles files =>
    match parseExcelFiles draw files s.ctr with
    | Except.ok res =>
      let sr := searchEffect fuseSearch (s.records ++ res.1) s.query
        (s.exactMatches, s.fuzzyMatches)
      { records := s.records ++ res.1, query := s.query,
        exactMatches := sr.1, fuzzyMatches := sr.2, ctr := res.2 }
    | Except.error _ => s
  | Event.search q =>
    let sr := searchEffect fuseSearch s.records q (s.exactMatches, s.fuzzyMatches)
    { records := s.records, query := q,
      exactMatches := sr.1, fuzzyMatches := sr.2, ctr := s.ctr }
  | Event.reset =>
    { records := [], query := "", exactMatches := [], fuzzyMatches := [], ctr := s.ctr }

/-- Run a list of events from a state. -/
def runEvents (draw : Nat → String)
    (fuseSearch : List TranslationRecord → String → List TranslationRecord) :
    AppState → List Event → AppState
  | s, [] => s
  | s, e :: es => runEvents draw fuseSearch (step draw fuseSearch s e) es

/-- A browser File as far as DropZone looks at it. -/
structure JsFile where
  name : String
deriving DecidableEq

/-- DropZone.handleDrop: while an import is processing the drop is ignored;
otherwise the dropped files are filtered to the spreadsheet extensions and
delivered only when some remain.  none models no call to onFilesSelected. -/
def handleDrop (isProcessing : Bool) (files : List JsFile) : Option (List JsFile) :=
  if isProcessing then none
  else if 0 < (files.filter fun f =>
      jsEndsWith f.name ".xlsx" || jsEndsWith f.name ".xls" || jsEndsWith f.name ".csv").length
  then some (files.filter fun f =>
      jsEndsWith f.name ".xlsx" || jsEndsWith f.name ".xls" || jsEndsWith f.name ".csv")
  else none

/-- DropZone.handleFileInput: any non-empty selection is delivered unchanged,
with no extension filtering in the handler itself. -/
def handleFileInput (files : List JsFile) : Option (List JsFile) :=
  if 0 < files.length then some files else none

/-- Spec-side predicate: m matches the query case-insensitively, character by
character. -/
def CiEq (m q : String) : Prop :=
  jsToLower m = jsToLower q

/-- Spec-side whole-word containment, written from the claim's words: s
contains the query, bounded on each side by a string boundary or by one of the
separators whitespace, dot, underscore, dash, case-insensitively. -/
def SepBounded (q s : String) : Prop :=
  ∃ u m v : String, s = u ++ m ++ v ∧ CiEq m q ∧
    (u = "" ∨ ∃ u' c, u = u' ++ String.singleton c ∧ isSep c = true) ∧
    (v = "" ∨ ∃ c v', v = String.singleton c ++ v' ∧ isSep c = true)

/-- Spec-side exact-match classification of claim C1. -/
def ClaimExactPred (q : String) (r : TranslationRecord) : Prop :=
  CiEq r.key q ∨ CiEq r.sourceText q ∨ SepBounded q r.key ∨ SepBounded q r.sourceText

instance {ε α : Type} [DecidableEq ε] [DecidableEq α] : DecidableEq (Except ε α) :=
  fun a b =>
    match a, b with
    | Except.ok x, Except.ok y => decidable_of_iff (x = y) (by simp)
    | Except.error x, Except.error y => decidable_of_iff (x = y) (by simp)
    | Except.ok _, Except.error _ => isFalse (by simp)
    | Except.error _, Except.ok _ => isFalse (by simp)

/-! Basic facts about the string model. -/

theorem str_data_append (a b : String) : (a ++ b).data = a.data ++ b.data := rfl

theorem str_ext {a b : String} (h : a.data = b.data) : a = b :=
  congrArg String.mk h

theorem str_length_data (s : String) : s.length = s.data.length := rfl

theorem jsToLower_data (s : String) : (jsToLower s).data = s.data.map Char.toLower := rfl

/-! Correctness of the operational whole-word matcher with respect to the
declarative separator-bounded containment of the claim. -/

theorem stripCI_eq_some (q : List Char) :
    ∀ s r : List Char, stripCI q s = some r ↔
      ∃ m, s = m ++ r ∧ m.map Char.toLower = q.map Char.toLower := by
  induction q with
  | nil =>
    intro s r
    simp only [stripCI, Option.some.injEq, List.map_nil]
    constructor
    · rintro rfl
      exact ⟨[], by simp, by simp⟩
    · rintro ⟨m, hs, hm⟩
      have hm0 : m = [] := List.map_eq_nil_iff.mp hm
      subst hm0
      simpa using hs
  | cons p ps ih =>
    intro s r
    cases s with
    | nil =>
      simp only [stripCI]
      constructor
      · intro h
        exact absurd h (by simp)
      · rintro ⟨m, hs, hm⟩
        have hm0 : m = [] := (List.append_eq_nil.mp hs.symm).1
        subst hm0
        simp at hm
    | cons c cs =>
      simp only [stripCI]
      by_cases hc : c.toLower = p.toLower
      · rw [if_pos hc, ih cs r]
        constructor
        · rintro ⟨m, rfl, hm⟩
          exact ⟨c :: m, rfl, by simp [hm, hc]⟩
        · rintro ⟨m, hs, hm⟩
          cases m with
          | nil => simp at hm
          | cons a t =>
            rw [List.cons_append] at hs
            have ha : a = c := (List.cons.injEq _ _ _ _ ▸ hs).1.symm
            have hcs : cs = t ++ r := (List.cons.injEq _ _ _ _ ▸ hs).2
            refine ⟨t, hcs, ?_⟩
            have := hm
            simp only [List.map_cons, List.cons.injEq] at this
            exact this.2
      · rw [if_neg hc]
        constructor
        · intro h
          exact absurd h (by simp)
        · rintro ⟨m, hs, hm⟩
          cases m with
          | nil => simp at hm
          | cons a t =>
            rw [List.cons_append] at hs
            have ha : a = c := (List.cons.injEq _ _ _ _ ▸ hs).1.symm
            simp only [List.map_cons, List.cons.injEq] at hm
            exact absurd (ha ▸ hm.1) hc

/-- Right-boundary condition as a proposition. -/
def HeadBoundary (v : List Char) : Prop :=
  v = [] ∨ ∃ c v', v = c :: v' ∧ isSep c = true

theorem tailBoundary_iff (v : List Char) : tailBoundary v = true ↔ HeadBoundary v := by
  cases v with
  | nil => simp [tailBoundary, HeadBoundary]
  | cons c t =>
    simp only [tailBoundary, HeadBoundary]
    constructor
    · intro h
      exact Or.inr ⟨c, t, rfl, h⟩
    · rintro (h | ⟨c', t', he, hsep⟩)
      · exact absurd h (by simp)
      · obtain ⟨rfl, rfl⟩ : c' = c ∧ t' = t := by
          constructor
          · exact ((List.cons.injEq _ _ _ _ ▸ he).1).symm
          · exact ((List.cons.injEq _ _ _ _ ▸ he).2).symm
        exact hsep

theorem matchHere_iff (q s : List Char) :
    matchHere q s = true ↔
      ∃ m v, s = m ++ v ∧ m.map Char.toLower = q.map Char.toLower ∧ HeadBoundary v := by
  unfold matchHere
  cases h : stripCI q s with
  | none =>
    constructor
    · intro hf
      exact absurd hf (by simp)
    · rintro ⟨m, v, rfl, hm, hb⟩
      have : stripCI q (m ++ v) = some v := (stripCI_eq_some q (m ++ v) v).mpr ⟨m, rfl, hm⟩
      rw [h] at this
      exact absurd this (by simp)
  | some rest =>
    obtain ⟨m, hs, hm⟩ := (stripCI_eq_some q s rest).mp h
    constructor
    · intro hb
      exact ⟨m, rest, hs, hm, (tailBoundary_iff rest).mp hb⟩
    · rintro ⟨m', v, hs', hm', hb⟩
      have : stripCI q s = some v := (stripCI_eq_some q s v).mpr ⟨m', hs', hm'⟩
      rw [h] at this
      have hv : rest = v := by
        injection this
      exact (tailBoundary_iff rest).mpr (hv ▸ hb)

theorem scanSep_iff (q : List Char) :
    ∀ s, scanSep q s = true ↔
      ∃ u c rest, s = u ++ c :: rest ∧ isSep c = true ∧ matchHere q rest = true := by
  intro s
  induction s with
  | nil =>
    simp only [scanSep]
    constructor
    · intro h
      exact absurd h (by simp)
    · rintro ⟨u, c, rest, he, _, _⟩
      exact absurd he.symm (by simp)
  | cons a t ih =>
    simp only [scanSep, Bool.or_eq_true, Bool.and_eq_true, ih]
    constructor
    · rintro (⟨ha, hm⟩ | ⟨u, c, rest, rfl, hc, hm⟩)
      · exact ⟨[], a, t, rfl, ha, hm⟩
      · exact ⟨a :: u, c, rest, rfl, hc, hm⟩
    · rintro ⟨u, c, rest, he, hc, hm⟩
      cases u with
      | nil =>
        simp only [List.nil_append] at he
        obtain ⟨rfl, rfl⟩ : a = c ∧ t = rest :=
          ⟨(List.cons.injEq _ _ _ _ ▸ he).1, (List.cons.injEq _ _ _ _ ▸ he).2⟩
        exact Or.inl ⟨hc, hm⟩
      | cons b u' =>
        rw [List.cons_append] at he
        obtain ⟨rfl, ht⟩ : a = b ∧ t = u' ++ c :: rest :=
          ⟨(List.cons.injEq _ _ _ _ ▸ he).1, (List.cons.injEq _ _ _ _ ▸ he).2⟩
        exact Or.inr ⟨u', c, rest, ht, hc, hm⟩

/-- List-level separator-bounded containment. -/
def SepBoundedL (q s : List Char) : Prop :=
  ∃ u m v : List Char, s = u ++ m ++ v ∧ m.map Char.toLower = q.map Char.toLower ∧
    (u = [] ∨ ∃ u' c, u = u' ++ [c] ∧ isSep c = true) ∧ HeadBoundary v

theorem testWWL_iff (q s : List Char) :
    (matchHere q s || scanSep q s) = true ↔ SepBoundedL q s := by
  rw [Bool.or_eq_true, matchHere_iff, scanSep_iff]
  constructor
  · rintro (⟨m, v, rfl, hm, hb⟩ | ⟨u, c, rest, rfl, hc, hmh⟩)
    · exact ⟨[], m, v, by simp, hm, Or.inl rfl, hb⟩
    · obtain ⟨m, v, rfl, hm, hb⟩ := (matchHere_iff q rest).mp hmh
      refine ⟨u ++ [c], m, v, ?_, hm, Or.inr ⟨u, c, rfl, hc⟩, hb⟩
      simp
  · rintro ⟨u, m, v, rfl, hm, (rfl | ⟨u', c, rfl, hc⟩), hb⟩
    · exact Or.inl ⟨m, v, by simp, hm, hb⟩
    · refine Or.inr ⟨u', c, m ++ v, ?_, hc, (matchHere_iff q (m ++ v)).mpr ⟨m, v, rfl, hm, hb⟩⟩
      simp

theorem sepBounded_iff_data (q s : String) : SepBounded q s ↔ SepBoundedL q.data s.data := by
  constructor
  · rintro ⟨u, m, v, hs, hci, hu, hv⟩
    refine ⟨u.data, m.data, v.data, ?_, ?_, ?_, ?_⟩
    · rw [hs, str_data_append, str_data_append]
    · have := congrArg String.data hci
      simpa [jsToLower_data] using this
    · rcases hu with rfl | ⟨u', c, rfl, hc⟩
      · exact Or.inl rfl
      · exact Or.inr ⟨u'.data, c, by rw [str_data_append]; rfl, hc⟩
    · rcases hv with rfl | ⟨c, v', rfl, hc⟩
      · exact Or.inl rfl
      · exact Or.inr ⟨c, v'.data, by rw [str_data_append]; rfl, hc⟩
  · rintro ⟨u, m, v, hs, hm, hu, hv⟩
    refine ⟨String.mk u, String.mk m, String.mk v, ?_, ?_, ?_, ?_⟩
    · exact str_ext (by rw [str_data_append, str_data_append]; exact hs)
    · exact str_ext (by simpa [jsToLower_data] using hm)
    · rcases hu with rfl | ⟨u', c, rfl, hc⟩
      · exact Or.inl rfl
      · exact Or.inr ⟨String.mk u', c, str_ext (by rw [str_data_append]; rfl), hc⟩
    · rcases hv with rfl | ⟨c, v', rfl, hc⟩
      · exact Or.inl rfl
      · exact Or.inr ⟨c, String.mk v', str_ext (by rw [str_data_append]; rfl), hc⟩

theorem testWW_iff (q s : String) : testWW q s = true ↔ SepBounded q s := by
  rw [testWW, testWWL_iff, sepBounded_iff_data]

theorem isExactMatch_iff (q : String) (r : TranslationRecord) :
    isExactMatch q r = true ↔ ClaimExactPred q r := by
  unfold isExactMatch ClaimExactPred CiEq
  simp only [Bool.or_eq_true, beq_iff_eq, testWW_iff]
  tauto

/-! Idempotence of the trim model. -/

theorem dropWhile_dropWhile {α : Type} (p : α → Bool) (l : List α) :
    (l.dropWhile p).dropWhile p = l.dropWhile p := by
  induction l with
  | nil => rfl
  | cons c t ih =>
    by_cases h : p c = true
    · simp [List.dropWhile_cons, h, ih]
    · simp [List.dropWhile_cons, h]

theorem dropWhile_suffix_decomp {α : Type} (p : α → Bool) (l : List α) :
    ∃ t, l = t ++ l.dropWhile p := by
  induction l with
  | nil => exact ⟨[], rfl⟩
  | cons c cs ih =>
    by_cases h : p c = true
    · obtain ⟨t, ht⟩ := ih
      refine ⟨c :: t, ?_⟩
      rw [List.dropWhile_cons, if_pos h, List.cons_append]
      exact congrArg (List.cons c) ht
    · refine ⟨[], ?_⟩
      rw [List.nil_append, List.dropWhile_cons, if_neg h]

theorem length_dropWhile_le_len {α : Type} (p : α → Bool) (l : List α) :
    (l.dropWhile p).length ≤ l.length := by
  induction l with
  | nil => exact le_refl _
  | cons c t ih =>
    by_cases h : p c = true
    · rw [List.dropWhile_cons, if_pos h]
      exact le_trans ih (by simp)
    · rw [List.dropWhile_cons, if_neg h]

theorem head_not_of_dropWhile_eq_self {α : Type} (p : α → Bool) (l : List α)
    (hl : l.dropWhile p = l) :
    ∀ c t, l = c :: t → p c = false := by
  intro c t hct
  subst hct
  cases hpc : p c with
  | false => rfl
  | true =>
    rw [List.dropWhile_cons, if_pos hpc] at hl
    have h1 := congrArg List.length hl
    have h2 := length_dropWhile_le_len p t
    simp only [List.length_cons] at h1
    omega

theorem dropWhile_of_eq_self_reverse {α : Type} (p : α → Bool) (l : List α)
    (hl : l.dropWhile p = l) :
    ((l.reverse.dropWhile p).reverse).dropWhile p = (l.reverse.dropWhile p).reverse := by
  obtain ⟨t, ht⟩ := dropWhile_suffix_decomp p l.reverse
  have hl2 : l = (l.reverse.dropWhile p).reverse ++ t.reverse := by
    have h := congrArg List.reverse ht
    simpa using h
  cases hM : (l.reverse.dropWhile p).reverse with
  | nil => rfl
  | cons c m =>
    have hc : p c = false := by
      apply head_not_of_dropWhile_eq_self p l hl c (m ++ t.reverse)
      rw [hl2, hM, List.cons_append]
    rw [List.dropWhile_cons, if_neg (by simp [hc])]

theorem trimL_idem (l : List Char) : trimL (trimL l) = trimL l := by
  unfold trimL
  have h1 := dropWhile_of_eq_self_reverse isJsWs (l.dropWhile isJsWs)
    (dropWhile_dropWhile isJsWs l)
  rw [h1, List.reverse_reverse, dropWhile_dropWhile]

theorem jsTrim_idem (s : String) : jsTrim (jsTrim s) = jsTrim s := by
  show String.mk (trimL (trimL s.data)) = String.mk (trimL s.data)
  rw [trimL_idem]

/-! Shape of the records emitted by the row loop. -/

theorem rowRecord_eq_some {draw : Nat → String} {sheetName : String} {rowIndex : Nat}
    {row : List String} {ctr : Nat} {r : TranslationRecord}
    (h : rowRecord draw sheetName rowIndex row ctr = some r) :
    r.id = (sheetName ++ "-" ++ toString rowIndex ++ "-") ++ draw ctr ∧
    r.key = jsTrim (row.getD 1 "") ∧ r.sourceText = jsTrim (row.getD 2 "") := by
  unfold rowRecord at h
  split at h
  · exact absurd h (by simp)
  · split at h
    · exact absurd h (by simp)
    · split at h
      · exact absurd h (by simp)
      · have hr := Option.some.inj h
        subst hr
        exact ⟨rfl, rfl, rfl⟩

theorem rowRecord_trimmed {draw : Nat → String} {sheetName : String} {rowIndex : Nat}
    {row : List String} {ctr : Nat} {r : TranslationRecord}
    (h : rowRecord draw sheetName rowIndex row ctr = some r) :
    r.key = jsTrim r.key ∧ r.sourceText = jsTrim r.sourceText := by
  obtain ⟨-, hk, hs⟩ := rowRecord_eq_some h
  constructor
  · rw [hk, jsTrim_idem]
  · rw [hs, jsTrim_idem]

/-! The draw indices consumed by one parsing call. -/

/-- Specification of the ids generated by one parsing call: the k-th record of
the batch carries draw (ctr + k) as its id suffix, and the counter advances by
the batch length. -/
def IdsSpec (draw : Nat → String) (ctr ctr2 : Nat) (recs : List TranslationRecord) : Prop :=
  ctr2 = ctr + recs.length ∧
  ∀ k : Nat, (h : k < recs.length) → ∃ p, (recs.get ⟨k, h⟩).id = p ++ draw (ctr + k)

theorem idsSpec_nil (draw : Nat → String) (ctr : Nat) : IdsSpec draw ctr ctr [] := by
  constructor
  · simp
  · intro k h
    simp at h

theorem idsSpec_cons {draw : Nat → String} {ctr ctr2 : Nat} {r : TranslationRecord}
    {rs : List TranslationRecord} (hp : ∃ p, r.id = p ++ draw ctr)
    (hrest : IdsSpec draw (ctr + 1) ctr2 rs) : IdsSpec draw ctr ctr2 (r :: rs) := by
  obtain ⟨hlen, hidx⟩ := hrest
  constructor
  · simp only [List.length_cons]
    omega
  · intro k h
    cases k with
    | zero => simpa using hp
    | succ k =>
      have hk : k < rs.length := by simpa using h
      obtain ⟨p, hpk⟩ := hidx k hk
      refine ⟨p, ?_⟩
      have harith : ctr + (k + 1) = ctr + 1 + k := by omega
      rw [harith]
      simpa using hpk

theorem idsSpec_append {draw : Nat → String} {a b c : Nat}
    {l₁ l₂ : List TranslationRecord} (h₁ : IdsSpec draw a b l₁) (h₂ : IdsSpec draw b c l₂) :
    IdsSpec draw a c (l₁ ++ l₂) := by
  obtain ⟨hb, hi₁⟩ := h₁
  obtain ⟨hc, hi₂⟩ := h₂
  constructor
  · simp only [List.length_append]
    omega
  · intro k h
    have hlen : k < l₁.length + l₂.length := by simpa using h
    by_cases hk : k < l₁.length
    · obtain ⟨p, hp⟩ := hi₁ k hk
      refine ⟨p, ?_⟩
      rw [List.get_append k hk]
      exact hp
    · have hk2 : k - l₁.length < l₂.length := by omega
      obtain ⟨p, hp⟩ := hi₂ (k - l₁.length) hk2
      refine ⟨p, ?_⟩
      have hg : (l₁ ++ l₂).get ⟨k, h⟩ = l₂.get ⟨k - l₁.length, hk2⟩ := by
        rw [List.get_append_right]
        omega
      rw [hg, hp]
      have : b + (k - l₁.length) = a + k := by omega
      rw [this]

theorem processRows_idsSpec (draw : Nat → String) (sheetName : String) :
    ∀ (rows : List (List String)) (rowIndex ctr : Nat),
      IdsSpec draw ctr (processRows draw sheetName rows rowIndex ctr).2
        (processRows draw sheetName rows rowIndex ctr).1 := by
  intro rows
  induction rows with
  | nil => intro rowIndex ctr; exact idsSpec_nil draw ctr
  | cons row rest ih =>
    intro rowIndex ctr
    simp only [processRows]
    cases hr : rowRecord draw sheetName rowIndex row ctr with
    | none => exact ih (rowIndex + 1) ctr
    | some r =>
      exact idsSpec_cons ⟨sheetName ++ "-" ++ toString rowIndex ++ "-",
        (rowRecord_eq_some hr).1⟩ (ih (rowIndex + 1) (ctr + 1))

theorem processWorkbook_idsSpec (draw : Nat → String) :
    ∀ (sheets : List Sheet) (ctr : Nat),
      IdsSpec draw ctr (processWorkbook draw sheets ctr).2
        (processWorkbook draw sheets ctr).1 := by
  intro sheets
  induction sheets with
  | nil => intro ctr; exact idsSpec_nil draw ctr
  | cons sh rest ih =>
    intro ctr
    simp only [processWorkbook]
    exact idsSpec_append (processRows_idsSpec draw sh.name sh.rows 0 ctr) (ih _)

theorem parseExcelFiles_idsSpec (draw : Nat → String) :
    ∀ (files : List FileInput) (ctr : Nat) (res : List TranslationRecord × Nat),
      parseExcelFiles draw files ctr = Except.ok res → IdsSpec draw ctr res.2 res.1 := by
  intro files
  induction files with
  | nil =>
    intro ctr res h
    simp only [parseExcelFiles] at h
    obtain rfl : ([], ctr) = res := by injection h
    exact idsSpec_nil draw ctr
  | cons f rest ih =>
    intro ctr res h
    cases f with
    | error e =>
      simp only [parseExcelFiles] at h
      exact absurd h (by simp)
    | ok wb =>
      simp only [parseExcelFiles] at h
      cases hr : parseExcelFiles draw rest (processWorkbook draw wb ctr).2 with
      | error e =>
        rw [hr] at h
        exact absurd h (by simp)
      | ok res2 =>
        rw [hr] at h
        obtain rfl : ((processWorkbook draw wb ctr).1 ++ res2.1, res2.2) = res := by
          injection h
        exact idsSpec_append (processWorkbook_idsSpec draw wb ctr) (ih _ _ hr)

/-! Uniqueness of the generated ids. -/

theorem str_append_cancel {a b c d : String} (h : a ++ b = c ++ d)
    (hl : b.length = d.length) : b = d := by
  have hd : a.data ++ b.data = c.data ++ d.data := by
    rw [← str_data_append, ← str_data_append, h]
  have hlen : b.data.length = d.data.length := hl
  exact str_ext (List.append_inj' hd hlen).2

/-- A draw oracle is good below C when its draws are 9 characters long (the
shape of Math.random().toString(36).substr(2, 9)) and pairwise distinct on the
indices below C. -/
def GoodDraw (draw : Nat → String) (C : Nat) : Prop :=
  (∀ n, n < C → (draw n).length = 9) ∧
  (∀ m, m < C → ∀ n, n < C → draw m = draw n → m = n)

theorem idsSpec_pairwise {draw : Nat → String} {ctr ctr2 C : Nat}
    {recs : List TranslationRecord} (hs : IdsSpec draw ctr ctr2 recs)
    (hC : ctr2 ≤ C) (hg : GoodDraw draw C) :
    List.Pairwise (fun a b => a ≠ b) (recs.map (fun r => r.id)) := by
  obtain ⟨hlen, hidx⟩ := hs
  rw [List.pairwise_map, List.pairwise_iff_get]
  intro i j hij
  obtain ⟨p, hp⟩ := hidx i.1 i.2
  obtain ⟨q, hq⟩ := hidx j.1 j.2
  intro heq
  have h9i : (draw (ctr + i.1)).length = 9 := hg.1 _ (by omega)
  have h9j : (draw (ctr + j.1)).length = 9 := hg.1 _ (by omega)
  have hde : draw (ctr + i.1) = draw (ctr + j.1) := by
    apply str_append_cancel (b := draw (ctr + i.1)) (d := draw (ctr + j.1))
    · rw [← hp, ← hq]
      exact heq
    · rw [h9i, h9j]
  have := hg.2 (ctr + i.1) (by omega) (ctr + j.1) (by omega) hde
  have hij2 : i.1 < j.1 := hij
  omega

theorem idsSpec_mem {draw : Nat → String} {ctr ctr2 : Nat} {recs : List TranslationRecord}
    (hs : IdsSpec draw ctr ctr2 recs) {r : TranslationRecord} (hr : r ∈ recs) :
    ∃ n, ctr ≤ n ∧ n < ctr2 ∧ ∃ p, r.id = p ++ draw n := by
  obtain ⟨hlen, hidx⟩ := hs
  obtain ⟨i, rfl⟩ := List.mem_iff_get.mp hr
  obtain ⟨p, hp⟩ := hidx i.1 i.2
  have := i.2
  exact ⟨ctr + i.1, by omega, by omega, p, hp⟩

/-- Invariant behind claim C7: ids are pairwise distinct, and each record's id
ends in a draw whose index has already been consumed. -/
def IdInv (draw : Nat → String) (s : AppState) : Prop :=
  List.Pairwise (fun a b => a ≠ b) (s.records.map (fun r => r.id)) ∧
  ∀ r, r ∈ s.records → ∃ n, n < s.ctr ∧ ∃ p, r.id = p ++ draw n

theorem idInv_init (draw : Nat → String) : IdInv draw initState := by
  constructor
  · simp [initState]
  · intro r hr
    simp [initState] at hr

theorem step_ctr_mono (draw : Nat → String)
    (fuse : List TranslationRecord → String → List TranslationRecord)
    (s : AppState) (e : Event) : s.ctr ≤ (step draw fuse s e).ctr := by
  cases e with
  | importFiles files =>
    simp only [step]
    cases hp : parseExcelFiles draw files s.ctr with
    | ok res =>
      have hlen := (parseExcelFiles_idsSpec draw files s.ctr res hp).1
      simp only
      omega
    | error e => exact le_refl _
  | search q => exact le_refl _
  | reset => exact le_refl _

theorem runEvents_ctr_mono (draw : Nat → String)
    (fuse : List TranslationRecord → String → List TranslationRecord) :
    ∀ (evs : List Event) (s : AppState), s.ctr ≤ (runEvents draw fuse s evs).ctr := by
  intro evs
  induction evs with
  | nil => intro s; exact le_refl _
  | cons e rest ih =>
    intro s
    exact le_trans (step_ctr_mono draw fuse s e) (ih (step draw fuse s e))

theorem idInv_step {draw : Nat → String}
    {fuse : List TranslationRecord → String → List TranslationRecord}
    {C : Nat} {s : AppState} {e : Event} (hg : GoodDraw draw C)
    (hinv : IdInv draw s) (hle : (step draw fuse s e).ctr ≤ C) :
    IdInv draw (step draw fuse s e) := by
  cases e with
  | search q => exact hinv
  | reset =>
    constructor
    · simp [step]
    · intro r hr
      simp [step] at hr
  | importFiles files =>
    cases hp : parseExcelFiles draw files s.ctr with
    | error err =>
      simp only [step, hp]
      exact hinv
    | ok res =>
      have hspec := parseExcelFiles_idsSpec draw files s.ctr res hp
      have hctr : res.2 ≤ C := by simpa only [step, hp] using hle
      have hctr0 : s.ctr ≤ res.2 := by
        have := hspec.1
        omega
      simp only [step, hp]
      constructor
      · rw [List.map_append, List.pairwise_append]
        refine ⟨hinv.1, idsSpec_pairwise hspec hctr hg, ?_⟩
        intro a ha b hb
        obtain ⟨ra, hra, rfl⟩ := List.mem_map.mp ha
        obtain ⟨rb, hrb, rfl⟩ := List.mem_map.mp hb
        obtain ⟨n, hn, p, hpp⟩ := hinv.2 ra hra
        obtain ⟨n2, hn21, hn22, q, hq⟩ := idsSpec_mem hspec hrb
        intro heq
        have h9a : (draw n).length = 9 := hg.1 _ (by omega)
        have h9b : (draw n2).length = 9 := hg.1 _ (by omega)
        have hde : draw n = draw n2 := by
          apply str_append_cancel (b := draw n) (d := draw n2)
          · rw [← hpp, ← hq]
            exact heq
          · rw [h9a, h9b]
        have := hg.2 n (by omega) n2 (by omega) hde
        omega
      · intro r hr
        rcases List.mem_append.mp hr with hr | hr
        · obtain ⟨n, hn, p, hpp⟩ := hinv.2 r hr
          exact ⟨n, by simp only; omega, p, hpp⟩
        · obtain ⟨n, hn1, hn2, p, hpp⟩ := idsSpec_mem hspec hr
          exact ⟨n, by simp only; omega, p, hpp⟩

theorem idInv_run {draw : Nat → String}
    {fuse : List TranslationRecord → String → List TranslationRecord}
    {C : Nat} (hg : GoodDraw draw C) :
    ∀ (evs : List Event) (s : AppState), IdInv draw s →
      (runEvents draw fuse s evs).ctr ≤ C → IdInv draw (runEvents draw fuse s evs) := by
  intro evs
  induction evs with
  | nil =>
    intro s h _
    exact h
  | cons e rest ih =>
    intro s h hle
    have hle2 : (step draw fuse s e).ctr ≤ C :=
      le_trans (runEvents_ctr_mono draw fuse rest (step draw fuse s e)) hle
    exact ih (step draw fuse s e) (idInv_step hg h hle2) hle

/-! The search invariant: empty record set gives empty results, and the two
result lists never share an id. -/

/-- Invariant behind claims C2 and C8. -/
def SearchInv (s : AppState) : Prop :=
  (s.records = [] → s.exactMatches = [] ∧ s.fuzzyMatches = []) ∧
  (s.exactMatches.map (fun r => r.id)).inter (s.fuzzyMatches.map (fun r => r.id)) = []

theorem inter_eq_nil_of_no_common {l₁ l₂ : List String}
    (h : ∀ a, a ∈ l₁ → a ∉ l₂) : l₁.inter l₂ = [] := by
  rw [List.eq_nil_iff_forall_not_mem]
  intro a ha
  have h2 := List.mem_inter_iff.mp ha
  exact h a h2.1 h2.2

theorem nil_inter_l (l : List String) : ([] : List String).inter l = [] :=
  inter_eq_nil_of_no_common (fun a ha => absurd ha (by simp))

theorem searchInv_init : SearchInv initState := by
  constructor
  · intro h
    exact ⟨rfl, rfl⟩
  · exact nil_inter_l _

theorem searchEffect_inv
    (fuse : List TranslationRecord → String → List TranslationRecord)
    (rs : List TranslationRecord) (q : String)
    (prev : List TranslationRecord × List TranslationRecord)
    (hempty : rs = [] → prev.1 = [] ∧ prev.2 = [])
    (hdisj : (prev.1.map (fun r => r.id)).inter (prev.2.map (fun r => r.id)) = []) :
    (rs = [] → (searchEffect fuse rs q prev).1 = [] ∧ (searchEffect fuse rs q prev).2 = []) ∧
    ((searchEffect fuse rs q prev).1.map (fun r => r.id)).inter
      ((searchEffect fuse rs q prev).2.map (fun r => r.id)) = [] := by
  unfold searchEffect
  by_cases hq : jsTrim q = ""
  · rw [if_pos hq]
    constructor
    · intro h
      exact ⟨rfl, h⟩
    · exact nil_inter_l _
  · rw [if_neg hq]
    by_cases hlen : rs.length = 0
    · rw [if_pos hlen]
      exact ⟨fun _ => hempty (List.length_eq_zero.mp hlen), hdisj⟩
    · rw [if_neg hlen]
      constructor
      · intro h
        rw [h] at hlen
        exact absurd rfl hlen
      · apply inter_eq_nil_of_no_common
        intro a ha hb
        obtain ⟨rb, hrb, rfl⟩ := List.mem_map.mp hb
        obtain ⟨hrb1, hrb2⟩ := List.mem_filter.mp hrb
        have hcont : ((rs.filter (isExactMatch (jsTrim q))).map (fun r => r.id)).contains rb.id
            = false := by
          cases hcc : ((rs.filter (isExactMatch (jsTrim q))).map (fun r => r.id)).contains rb.id
          · rfl
          · rw [hcc] at hrb2
            exact absurd hrb2 (by simp)
        have hmem : ((rs.filter (isExactMatch (jsTrim q))).map (fun r => r.id)).elem rb.id
            = true := List.elem_iff.mpr ha
        rw [show ((rs.filter (isExactMatch (jsTrim q))).map (fun r => r.id)).contains rb.id
            = ((rs.filter (isExactMatch (jsTrim q))).map (fun r => r.id)).elem rb.id from rfl]
          at hcont
        rw [hmem] at hcont
        exact absurd hcont (by simp)

theorem searchInv_step (draw : Nat → String)
    (fuse : List TranslationRecord → String → List TranslationRecord)
    (s : AppState) (e : Event) (hinv : SearchInv s) : SearchInv (step draw fuse s e) := by
  cases e with
  | search q =>
    have h := searchEffect_inv fuse s.records q (s.exactMatches, s.fuzzyMatches)
      (fun hr => hinv.1 hr) hinv.2
    exact ⟨h.1, h.2⟩
  | reset =>
    constructor
    · intro h
      exact ⟨rfl, rfl⟩
    · exact nil_inter_l _
  | importFiles files =>
    cases hp : parseExcelFiles draw files s.ctr with
    | error err =>
      simp only [step, hp]
      exact hinv
    | ok res =>
      simp only [step, hp]
      have hemp : s.records ++ res.1 = [] →
          (s.exactMatches, s.fuzzyMatches).1 = [] ∧ (s.exactMatches, s.fuzzyMatches).2 = [] := by
        intro hr
        exact hinv.1 (List.append_eq_nil.mp hr).1
      have h := searchEffect_inv fuse (s.records ++ res.1) s.query
        (s.exactMatches, s.fuzzyMatches) hemp hinv.2
      exact ⟨h.1, h.2⟩

theorem searchInv_run (draw : Nat → String)
    (fuse : List TranslationRecord → String → List TranslationRecord) :
    ∀ (evs : List Event) (s : AppState), SearchInv s →
      SearchInv (runEvents draw fuse s evs) := by
  intro evs
  induction evs with
  | nil =>
    intro s h
    exact h
  | cons e rest ih =>
    intro s h
    exact ih (step draw fuse s e) (searchInv_step draw fuse s e h)

/-! Failure propagation in parseExcelFiles. -/

theorem parseExcelFiles_error_of_mem (draw : Nat → String) :
    ∀ (files : List FileInput), (∃ f, f ∈ files ∧ ∃ e, f = Except.error e) →
      ∀ ctr, ∃ e, parseExcelFiles draw files ctr = Except.error e := by
  intro files
  induction files with
  | nil =>
    rintro ⟨f, hf, -⟩ -
    simp at hf
  | cons g rest ih =>
    rintro ⟨f, hf, e, rfl⟩ ctr
    rcases List.mem_cons.mp hf with heq | hf2
    · rw [← heq]
      exact ⟨e, by simp [parseExcelFiles]⟩
    · cases g with
      | error e2 => exact ⟨e2, by simp [parseExcelFiles]⟩
      | ok wb =>
        obtain ⟨e3, he3⟩ := ih ⟨_, hf2, e, rfl⟩ (processWorkbook draw wb ctr).2
        refine ⟨e3, ?_⟩
        simp only [parseExcelFiles]
        rw [he3]

/-! The claims about the search engine. -/

/-- C1: for every query that is non-empty after trimming, the exact-match list
produced by a search in any reachable state is exactly the filter, in
accumulation order, of the records matched by the code's classification, and
that classification agrees with the claim's predicate: strict case-insensitive
equality on key or sourceText, or separator-bounded whole-word containment in
either field. -/
theorem claim1_exact_classification (draw : Nat → String)
    (fuse : List TranslationRecord → String → List TranslationRecord)
    (evs : List Event) (q : String) (h : jsTrim q ≠ "") :
    (step draw fuse (runEvents draw fuse initState evs) (Event.search q)).exactMatches
      = (runEvents draw fuse initState evs).records.filter (isExactMatch (jsTrim q)) ∧
    ∀ r, isExactMatch (jsTrim q) r = true ↔ ClaimExactPred (jsTrim q) r := by
  constructor
  · have hinv := searchInv_run draw fuse evs initState searchInv_init
    show (searchEffect fuse (runEvents draw fuse initState evs).records q
      ((runEvents draw fuse initState evs).exactMatches,
       (runEvents draw fuse initState evs).fuzzyMatches)).1 = _
    unfold searchEffect
    rw [if_neg h]
    by_cases hlen : (runEvents draw fuse initState evs).records.length = 0
    · rw [if_pos hlen]
      have hnil := List.length_eq_zero.mp hlen
      rw [hnil]
      simpa using (hinv.1 hnil).1
    · rw [if_neg hlen]
  · intro r
    exact isExactMatch_iff (jsTrim q) r

/-- C2: in every reachable state, the exact and fuzzy result lists share no
record id — the fuzzy list is deduplicated against the exact one by id. -/
theorem claim2_dedup_disjoint (draw : Nat → String)
    (fuse : List TranslationRecord → String → List TranslationRecord)
    (evs : List Event) :
    ((runEvents draw fuse initState evs).exactMatches.map (fun r => r.id)).inter
      ((runEvents draw fuse initState evs).fuzzyMatches.map (fun r => r.id)) = [] :=
  (searchInv_run draw fuse evs initState searchInv_init).2

/-- C3: a query that is empty after trimming puts the app in browse-all mode:
no exact matches, and the fuzzy column carries the full accumulated record set
in accumulation order. -/
theorem claim3_browse_all (draw : Nat → String)
    (fuse : List TranslationRecord → String → List TranslationRecord)
    (s : AppState) (q : String) (h : jsTrim q = "") :
    (step draw fuse s (Event.search q)).exactMatches = [] ∧
    (step draw fuse s (Event.search q)).fuzzyMatches = s.records := by
  constructor
  · show (searchEffect fuse s.records q (s.exactMatches, s.fuzzyMatches)).1 = []
    unfold searchEffect
    rw [if_pos h]
  · show (searchEffect fuse s.records q (s.exactMatches, s.fuzzyMatches)).2 = s.records
    unfold searchEffect
    rw [if_pos h]

/-- C6: when tabularization fails for any file of an import call, the whole
call fails and the App state — in particular the previously accumulated record
set — is left untouched; no sibling file's records are committed. -/
theorem claim6_failed_import_atomic (draw : Nat → String)
    (fuse : List TranslationRecord → String → List TranslationRecord)
    (s : AppState) (files : List FileInput)
    (h : ∃ f, f ∈ files ∧ ∃ e, f = Except.error e) :
    step draw fuse s (Event.importFiles files) = s := by
  obtain ⟨e, he⟩ := parseExcelFiles_error_of_mem draw files h s.ctr
  simp [step, he]

/-- C8: whenever the accumulated record set of a reachable state is empty, a
search with any query leaves both result lists empty. -/
theorem claim8_empty_records (draw : Nat → String)
    (fuse : List TranslationRecord → String → List TranslationRecord)
    (evs : List Event) (q : String)
    (h : (runEvents draw fuse initState evs).records = []) :
    (step draw fuse (runEvents draw fuse initState evs) (Event.search q)).exactMatches = [] ∧
    (step draw fuse (runEvents draw fuse initState evs) (Event.search q)).fuzzyMatches = [] := by
  have hinv := searchInv_run draw fuse evs initState searchInv_init
  have hprev := hinv.1 h
  have hgoal : (searchEffect fuse (runEvents draw fuse initState evs).records q
      ((runEvents draw fuse initState evs).exactMatches,
       (runEvents draw fuse initState evs).fuzzyMatches)).1 = [] ∧
      (searchEffect fuse (runEvents draw fuse initState evs).records q
      ((runEvents draw fuse initState evs).exactMatches,
       (runEvents draw fuse initState evs).fuzzyMatches)).2 = [] := by
    unfold searchEffect
    rw [h]
    by_cases hq : jsTrim q = ""
    · rw [if_pos hq]
      exact ⟨rfl, rfl⟩
    · rw [if_neg hq, if_pos (show ([] : List TranslationRecord).length = 0 from rfl)]
      exact hprev
  exact hgoal

/-! The claims about the normalizer. -/

/-- C4: a row among the first 5 rows of its group whose trimmed key candidate
is "key" or "id" and whose trimmed source candidate is "value", "source" or
contains "text" (case-insensitively) is discarded: no record is emitted. -/
theorem claim4_header_suppression (draw : Nat → String) (sheetName : String)
    (rowIndex : Nat) (row : List String) (ctr : Nat)
    (h5 : rowIndex < 5)
    (hk : jsToLower (jsTrim (row.getD 1 "")) = "key" ∨
      jsToLower (jsTrim (row.getD 1 "")) = "id")
    (hs : jsToLower (jsTrim (row.getD 2 "")) = "value" ∨
      jsToLower (jsTrim (row.getD 2 "")) = "source" ∨
      strContains (jsToLower (jsTrim (row.getD 2 ""))) "text" = true) :
    rowRecord draw sheetName rowIndex row ctr = none := by
  unfold rowRecord
  by_cases h1 : row.length < 2
  · rw [if_pos h1]
  · rw [if_neg h1]
    have hh : headerRow rowIndex (jsTrim (row.getD 1 "")) (jsTrim (row.getD 2 "")) = true := by
      unfold headerRow
      simp only [Bool.and_eq_true, Bool.or_eq_true, beq_iff_eq, decide_eq_true_eq]
      exact ⟨⟨h5, hk⟩, by tauto⟩
    rw [if_pos hh]

/-- C5: the row loop emits a record exactly when the row has at least 2
columns, the header heuristic does not fire, and the key and source candidates
are not both empty after trimming — so short rows and all-empty rows are
rejected, and every other non-header row yields exactly one record. -/
theorem claim5_row_admission (draw : Nat → String) (sheetName : String)
    (rowIndex : Nat) (row : List String) (ctr : Nat) :
    (rowRecord draw sheetName rowIndex row ctr).isSome = true ↔
      (2 ≤ row.length ∧
       headerRow rowIndex (jsTrim (row.getD 1 "")) (jsTrim (row.getD 2 "")) = false ∧
       ¬(jsTrim (row.getD 1 "") = "" ∧ jsTrim (row.getD 2 "") = "")) := by
  unfold rowRecord
  by_cases h1 : row.length < 2
  · rw [if_pos h1]
    simp only [Option.isSome_none, Bool.false_eq_true, false_iff]
    intro hc
    exact absurd hc.1 (by omega)
  · rw [if_neg h1]
    by_cases h2 : headerRow rowIndex (jsTrim (row.getD 1 "")) (jsTrim (row.getD 2 "")) = true
    · rw [if_pos h2]
      simp only [Option.isSome_none, Bool.false_eq_true, false_iff]
      intro hc
      rw [h2] at hc
      exact absurd hc.2.1 (by simp)
    · rw [if_neg h2]
      by_cases h3 : (jsTrim (row.getD 1 "") == "" && jsTrim (row.getD 2 "") == "") = true
      · rw [if_pos h3]
        simp only [Option.isSome_none, Bool.false_eq_true, false_iff]
        intro hc
        rw [Bool.and_eq_true, beq_iff_eq, beq_iff_eq] at h3
        exact hc.2.2 h3
      · rw [if_neg h3]
        simp only [Option.isSome_some, true_iff]
        refine ⟨by omega, Bool.not_eq_true _ ▸ h2, ?_⟩
        intro hc
        rw [Bool.and_eq_true, beq_iff_eq, beq_iff_eq] at h3
        exact h3 hc

/-! Trimmed fields of every emitted record. -/

theorem processRows_trimmed (draw : Nat → String) (sheetName : String) :
    ∀ (rows : List (List String)) (rowIndex ctr : Nat) (r : TranslationRecord),
      r ∈ (processRows draw sheetName rows rowIndex ctr).1 →
      r.key = jsTrim r.key ∧ r.sourceText = jsTrim r.sourceText := by
  intro rows
  induction rows with
  | nil =>
    intro rowIndex ctr r hr
    simp [processRows] at hr
  | cons row rest ih =>
    intro rowIndex ctr r hr
    cases hrr : rowRecord draw sheetName rowIndex row ctr with
    | none =>
      simp only [processRows, hrr] at hr
      exact ih _ _ r hr
    | some r0 =>
      simp only [processRows, hrr] at hr
      rcases List.mem_cons.mp hr with heq | hr2
      · rw [heq]
        exact rowRecord_trimmed hrr
      · exact ih _ _ r hr2

theorem processWorkbook_trimmed (draw : Nat → String) :
    ∀ (sheets : List Sheet) (ctr : Nat) (r : TranslationRecord),
      r ∈ (processWorkbook draw sheets ctr).1 →
      r.key = jsTrim r.key ∧ r.sourceText = jsTrim r.sourceText := by
  intro sheets
  induction sheets with
  | nil =>
    intro ctr r hr
    simp [processWorkbook] at hr
  | cons sh rest ih =>
    intro ctr r hr
    simp only [processWorkbook] at hr
    rcases List.mem_append.mp hr with hr | hr
    · exact processRows_trimmed draw sh.name sh.rows 0 ctr r hr
    · exact ih _ r hr

theorem parseExcelFiles_trimmed (draw : Nat → String) :
    ∀ (files : List FileInput) (ctr : Nat) (res : List TranslationRecord × Nat),
      parseExcelFiles draw files ctr = Except.ok res →
      ∀ r, r ∈ res.1 → r.key = jsTrim r.key ∧ r.sourceText = jsTrim r.sourceText := by
  intro files
  induction files with
  | nil =>
    intro ctr res h r hr
    simp only [parseExcelFiles] at h
    obtain rfl : ([], ctr) = res := by injection h
    simp at hr
  | cons f rest ih =>
    intro ctr res h r hr
    cases f with
    | error e =>
      simp only [parseExcelFiles] at h
      exact absurd h (by simp)
    | ok wb =>
      simp only [parseExcelFiles] at h
      cases hpe : parseExcelFiles draw rest (processWorkbook draw wb ctr).2 with
      | error e =>
        rw [hpe] at h
        exact absurd h (by simp)
      | ok res2 =>
        rw [hpe] at h
        obtain rfl : ((processWorkbook draw wb ctr).1 ++ res2.1, res2.2) = res := by
          injection h
        rcases List.mem_append.mp hr with hr | hr
        · exact processWorkbook_trimmed draw wb ctr r hr
        · exact ih _ _ hpe r hr

/-- Invariant behind claim C10. -/
def TrimInv (s : AppState) : Prop :=
  ∀ r, r ∈ s.records → r.key = jsTrim r.key ∧ r.sourceText = jsTrim r.sourceText

theorem trimInv_step (draw : Nat → String)
    (fuse : List TranslationRecord → String → List TranslationRecord)
    (s : AppState) (e : Event) (h : TrimInv s) : TrimInv (step draw fuse s e) := by
  cases e with
  | search q => exact h
  | reset =>
    intro r hr
    simp [step] at hr
  | importFiles files =>
    cases hp : parseExcelFiles draw files s.ctr with
    | error err =>
      simp only [step, hp]
      exact h
    | ok res =>
      simp only [step, hp]
      intro r hr
      rcases List.mem_append.mp hr with hr | hr
      · exact h r hr
      · exact parseExcelFiles_trimmed draw files s.ctr res hp r hr

theorem trimInv_run (draw : Nat → String)
    (fuse : List TranslationRecord → String → List TranslationRecord) :
    ∀ (evs : List Event) (s : AppState), TrimInv s → TrimInv (runEvents draw fuse s evs) := by
  intro evs
  induction evs with
  | nil =>
    intro s h
    exact h
  | cons e rest ih =>
    intro s h
    exact ih (step draw fuse s e) (trimInv_step draw fuse s e h)

/-- C10: every record in the accumulated set, after any sequence of events,
stores fields equal to their own trim: key and sourceText never carry leading
or trailing whitespace. -/
theorem claim10_trimmed_fields (draw : Nat → String)
    (fuse : List TranslationRecord → String → List TranslationRecord)
    (evs : List Event) (r : TranslationRecord)
    (h : r ∈ (runEvents draw fuse initState evs).records) :
    r.key = jsTrim r.key ∧ r.sourceText = jsTrim r.sourceText := by
  refine trimInv_run draw fuse evs initState ?_ r h
  intro r0 hr0
  simp [initState] at hr0

/-- C7: under the oracle model of Math.random — the draws consumed during the
run are 9 characters long and pairwise distinct — every record id in the
accumulated set is unique, across all import batches, and a successful import
appends its batch after the existing records, never replacing them. -/
theorem claim7_id_uniqueness (draw : Nat → String)
    (fuse : List TranslationRecord → String → List TranslationRecord)
    (evs : List Event)
    (hlen : ∀ n, n < (runEvents draw fuse initState evs).ctr → (draw n).length = 9)
    (hinj : ∀ m, m < (runEvents draw fuse initState evs).ctr →
      ∀ n, n < (runEvents draw fuse initState evs).ctr → draw m = draw n → m = n) :
    List.Pairwise (fun a b => a ≠ b)
      ((runEvents draw fuse initState evs).records.map (fun r => r.id)) ∧
    ∀ (s : AppState) (files : List FileInput) (res : List TranslationRecord × Nat),
      parseExcelFiles draw files s.ctr = Except.ok res →
      (step draw fuse s (Event.importFiles files)).records = s.records ++ res.1 := by
  constructor
  · exact (idInv_run (C := (runEvents draw fuse initState evs).ctr) ⟨hlen, hinj⟩
      evs initState (idInv_init draw) (le_refl _)).1
  · intro s files res hp
    simp [step, hp]

/-! The claims about the DropZone input paths. -/

/-- C9 counterexample: for the same single-file selection notes.txt, the drop
handler delivers nothing while the file-picker handler delivers the file, so
the two input paths do not have identical semantics. -/
theorem claim9_counterexample :
    handleDrop false [{ name := "notes.txt" }] = none ∧
    handleFileInput [{ name := "notes.txt" }] = some [{ name := "notes.txt" }] := by
  decide

/-- C9 amended: when no import is processing and every selected file name ends
in one of the allow-listed spreadsheet extensions, the drag-and-drop path and
the file-picker path deliver the same file list to the import operation; they
differ only in that the drop handler filters out other extensions (and stays
silent if none remain) while the picker handler forwards the selection
unchanged. -/
theorem claim9_same_on_allowed (files : List JsFile)
    (h : ∀ f, f ∈ files →
      (jsEndsWith f.name ".xlsx" || jsEndsWith f.name ".xls" ||
        jsEndsWith f.name ".csv") = true) :
    handleDrop false files = handleFileInput files := by
  unfold handleDrop handleFileInput
  rw [if_neg (by simp)]
  have hf : (files.filter fun f =>
      jsEndsWith f.name ".xlsx" || jsEndsWith f.name ".xls" ||
        jsEndsWith f.name ".csv") = files := List.filter_eq_self.mpr h
  rw [hf]

/-! Concrete artifacts used by the witnesses. -/

/-- Concrete draw oracle: two distinct 9-character draws. -/
def wdraw : Nat → String := fun n => if n = 0 then "aaaaaaaaa" else "baaaaaaaa"

/-- Concrete stand-in for the fuzzy index: return the record list itself. -/
def wfuse : List TranslationRecord → String → List TranslationRecord := fun rs _ => rs

/-- Concrete one-workbook import. -/
def wfiles : List FileInput :=
  [Except.ok [Sheet.mk "S" [["1", "greeting", "Hello World"], ["2", "farewell", "Goodbye"]]]]

/-- Concrete event list: one successful import. -/
def wevents : List Event := [Event.importFiles wfiles]

/-- The batch parsed from wfiles. -/
def wbatch : List TranslationRecord :=
  [{ id := "S-0-aaaaaaaaa", taskName := "S", originalId := "1", key := "greeting",
     sourceText := "Hello World", notes := [] },
   { id := "S-1-baaaaaaaa", taskName := "S", originalId := "2", key := "farewell",
     sourceText := "Goodbye", notes := [] }]

/-- The first record of wbatch. -/
def wrec : TranslationRecord :=
  { id := "S-0-aaaaaaaaa", taskName := "S", originalId := "1", key := "greeting",
    sourceText := "Hello World", notes := [] }

/-- A concrete state holding wbatch. -/
def wstate : AppState :=
  { records := wbatch, query := "", exactMatches := [], fuzzyMatches := [], ctr := 2 }

/-- An import call whose second file fails to tabularize. -/
def wbadFiles : List FileInput :=
  [Except.ok [Sheet.mk "S" [["1", "a", "b"]]], Except.error ()]

/-! Witnesses. -/

theorem claim1_witness :
    jsTrim "Hello World" ≠ "" ∧
    (step wdraw wfuse (runEvents wdraw wfuse initState wevents)
        (Event.search "Hello World")).exactMatches
      = (runEvents wdraw wfuse initState wevents).records.filter
          (isExactMatch (jsTrim "Hello World")) ∧
    (isExactMatch (jsTrim "Hello World") wrec = true ↔
      ClaimExactPred (jsTrim "Hello World") wrec) :=
  ⟨by decide,
   (claim1_exact_classification wdraw wfuse wevents "Hello World" (by decide)).1,
   (claim1_exact_classification wdraw wfuse wevents "Hello World" (by decide)).2 wrec⟩

theorem claim3_witness :
    jsTrim "   " = "" ∧
    (step wdraw wfuse wstate (Event.search "   ")).exactMatches = [] ∧
    (step wdraw wfuse wstate (Event.search "   ")).fuzzyMatches = wstate.records :=
  ⟨by decide,
   (claim3_browse_all wdraw wfuse wstate "   " (by decide)).1,
   (claim3_browse_all wdraw wfuse wstate "   " (by decide)).2⟩

theorem claim4_witness :
    ((0 : Nat) < 5 ∧
      jsToLower (jsTrim ((["#", "Key", "Source"] : List String).getD 1 "")) = "key" ∧
      jsToLower (jsTrim ((["#", "Key", "Source"] : List String).getD 2 "")) = "source") ∧
    rowRecord wdraw "Sheet1" 0 ["#", "Key", "Source"] 0 = none :=
  ⟨by decide,
   claim4_header_suppression wdraw "Sheet1" 0 ["#", "Key", "Source"] 0
     (by decide) (by decide) (by decide)⟩

theorem claim6_witness :
    wstate.records ≠ [] ∧
    step wdraw wfuse wstate (Event.importFiles wbadFiles) = wstate :=
  ⟨by decide,
   claim6_failed_import_atomic wdraw wfuse wstate wbadFiles
     ⟨Except.error (), by decide, (), rfl⟩⟩

theorem claim7_witness :
    (∀ n, n < (runEvents wdraw wfuse initState wevents).ctr → (wdraw n).length = 9) ∧
    List.Pairwise (fun a b => a ≠ b)
      ((runEvents wdraw wfuse initState wevents).records.map (fun r => r.id)) ∧
    (step wdraw wfuse initState (Event.importFiles wfiles)).records
      = initState.records ++ wbatch :=
  ⟨by decide,
   (claim7_id_uniqueness wdraw wfuse wevents (by decide) (by decide)).1,
   (claim7_id_uniqueness wdraw wfuse wevents (by decide) (by decide)).2 initState wfiles
     (wbatch, 2) (by decide)⟩

theorem claim8_witness :
    (runEvents wdraw wfuse initState []).records = [] ∧
    (step wdraw wfuse (runEvents wdraw wfuse initState [])
        (Event.search "greeting")).exactMatches = [] ∧
    (step wdraw wfuse (runEvents wdraw wfuse initState [])
        (Event.search "greeting")).fuzzyMatches = [] :=
  ⟨rfl,
   (claim8_empty_records wdraw wfuse [] "greeting" rfl).1,
   (claim8_empty_records wdraw wfuse [] "greeting" rfl).2⟩

theorem claim9_witness :
    (∀ f, f ∈ ([{ name := "a.xlsx" }, { name := "b.csv" }] : List JsFile) →
      (jsEndsWith f.name ".xlsx" || jsEndsWith f.name ".xls" ||
        jsEndsWith f.name ".csv") = true) ∧
    handleDrop false [{ name := "a.xlsx" }, { name := "b.csv" }]
      = handleFileInput [{ name := "a.xlsx" }, { name := "b.csv" }] :=
  ⟨by decide, claim9_same_on_allowed _ (by decide)⟩

theorem claim10_witness :
    wrec ∈ (runEvents wdraw wfuse initState wevents).records ∧
    wrec.key = jsTrim wrec.key ∧ wrec.sourceText = jsTrim wrec.sourceText :=
  ⟨by decide, claim10_trimmed_fields wdraw wfuse wevents wrec (by decide)⟩

end DeltaTracker
